import Mathlib

/-!
Verification of the uncertain-decimal arithmetic library (`src/lib.rs`,
`src/decimal.rs`) against its natural-language specification.

The external decimal primitive (the `dec` crate's `Decimal128`) is modelled
at the value level: a finite decimal number is a pair of an integer
coefficient and an integer exponent, denoting `coeff * 10 ^ exponent`.
Non-finite values (NaN, infinities) are outside the model; an operation of
the source that produces a non-finite result (division with a zero divisor,
square root of a negative number) is modelled as returning `none`.  The
exponent range of the model is unbounded; the IEEE decimal128 significand
width (34 digits) is applied where the primitive's arithmetic rounds.

Source loops (`with_min_digits`, `with_max_digits` in `src/decimal.rs`) are
unbounded `while` loops; they are modelled by structurally recursive
functions with an explicit fuel argument whose body is exactly the loop
body, so that a terminating run of the source loop of `k` iterations is
reproduced by the fuel-indexed function with any fuel `≥ k`.  Wrapper
definitions instantiate the fuel with a bound sufficient for every
terminating run of the source; a source run that never terminates
corresponds to fuel exhaustion with the loop guard still unsatisfied.
-/

/-- Fuel-indexed decimal digit count of a natural number: `0` for `0`, else
the number of base-10 digits.  Structural recursion on the fuel keeps the
definition kernel-computable. -/
def digCount : Nat → Nat → Nat
  | 0, _ => 0
  | f + 1, n => if n = 0 then 0 else digCount f (n / 10) + 1

/-- Number of decimal digits of `n` (`0` for `0`). -/
def digitsN (n : Nat) : Nat := digCount (n + 1) n

/-- Division of an integer by a positive natural number, rounding to
nearest with ties away from zero (decNumber `ROUND_HALF_UP`). -/
def roundHalfUpDiv (a : Int) (b : Nat) : Int :=
  a.sign * (((2 * a.natAbs + b) / (2 * b) : Nat) : Int)

/-- Division of an integer by a positive natural number, rounding to
nearest with ties to even (decNumber `ROUND_HALF_EVEN`, the default
rounding of the primitive's plain arithmetic operators). -/
def roundHalfEvenDiv (a : Int) (b : Nat) : Int :=
  let q := a.natAbs / b
  let r := a.natAbs % b
  let q2 := if 2 * r < b then q else if b < 2 * r then q + 1 else if q % 2 = 0 then q else q + 1
  a.sign * (q2 : Int)

/-- The value model of the external 128-bit decimal: an integer coefficient
and an integer exponent, denoting `coeff * 10 ^ exponent`.  Two values with
different coefficient/exponent pairs are distinct model states, exactly as
two `Decimal128` with different internal scales are distinct
representations of possibly equal numbers. -/
structure Decimal128 where
  coeff : Int
  exponent : Int
deriving DecidableEq

/-- The primitive's `digits()`: number of significant digits of the
coefficient, with `0` counting as one digit (decNumber convention). -/
def Decimal128.digits (d : Decimal128) : Nat :=
  if d.coeff = 0 then 1 else digitsN d.coeff.natAbs

/-- Zero with exponent 0 (`Decimal128::ZERO`). -/
def Decimal128.ZERO : Decimal128 := ⟨0, 0⟩

/-- One with exponent 0 (`Decimal128::ONE`). -/
def Decimal128.ONE : Decimal128 := ⟨1, 0⟩

/-- `Context::rescale` under the round-half-up rounding set by the callers:
rewrite `d` to exponent `e`, multiplying the coefficient exactly when the
new exponent is finer and rounding half-up when it is coarser. -/
def Decimal128.rescaleHU (d : Decimal128) (e : Int) : Decimal128 :=
  if e ≤ d.exponent then ⟨d.coeff * (10 : Int) ^ (d.exponent - e).toNat, e⟩
  else ⟨roundHalfUpDiv d.coeff (10 ^ (e - d.exponent).toNat), e⟩

/-- `Context::quantize` under round-half-up: give `v` the exponent of `u`.
In the one call site (`canonical`, true branch) the target exponent is
never finer than `v`'s, so the coefficient never widens and the
out-of-digits error case of the primitive is unreachable. -/
def Decimal128.quantizeHU (v u : Decimal128) : Decimal128 :=
  v.rescaleHU u.exponent

/-- `Decimal128::canonical` of the `dec` crate canonicalizes the bit
encoding without changing the value, coefficient, digit count or exponent;
at the value level it is the identity. -/
def Decimal128.canonicalEnc (d : Decimal128) : Decimal128 := d

/-- Round a decimal to at most `p` significant digits, ties to even: the
precision rounding the primitive applies to the result of its plain
arithmetic operators (at `p = 34` for a 128-bit decimal).  When rounding
carries into one more digit (all nines), one further exact division by ten
restores the digit count. -/
def Decimal128.roundSig (p : Nat) (d : Decimal128) : Decimal128 :=
  if d.digits ≤ p then d
  else
    let k := d.digits - p
    let c := roundHalfEvenDiv d.coeff (10 ^ k)
    if digitsN c.natAbs ≤ p then ⟨c, d.exponent + (k : Int)⟩
    else ⟨c / 10, d.exponent + (k : Int) + 1⟩

/-- The primitive's addition (`+` on `Decimal128`): exact sum at the finer
of the two exponents, rounded to the 34-digit precision (ties to even). -/
def Decimal128.add (a b : Decimal128) : Decimal128 :=
  Decimal128.roundSig 34
    ⟨a.coeff * (10 : Int) ^ (a.exponent - min a.exponent b.exponent).toNat
        + b.coeff * (10 : Int) ^ (b.exponent - min a.exponent b.exponent).toNat,
      min a.exponent b.exponent⟩

/-- The primitive's negation (`-` on `Decimal128`). -/
def Decimal128.neg (d : Decimal128) : Decimal128 := ⟨-d.coeff, d.exponent⟩

/-- The primitive's subtraction: addition of the negation. -/
def Decimal128.sub (a b : Decimal128) : Decimal128 := a.add b.neg

/-- The primitive's multiplication (`*` on `Decimal128`): exact product of
coefficients, sum of exponents, rounded to the 34-digit precision. -/
def Decimal128.mul (a b : Decimal128) : Decimal128 :=
  Decimal128.roundSig 34 ⟨a.coeff * b.coeff, a.exponent + b.exponent⟩

/-- Strip trailing zeros from `(c, e)` while the exponent is below the
target `ideal` (fuel-indexed; used for the exact-quotient exponent rule). -/
def stripTZBelow : Nat → Nat → Int → Int → Nat × Int
  | 0, c, e, _ => (c, e)
  | f + 1, c, e, ideal =>
    if c % 10 = 0 ∧ c ≠ 0 ∧ e < ideal then stripTZBelow f (c / 10) (e + 1) ideal else (c, e)

/-- Strip trailing zeros from `(c, e)` while the coefficient is wider than
34 digits (fuel-indexed; an exact quotient wider than the precision is
shortened exactly where possible before any rounding). -/
def stripTZOver : Nat → Nat → Int → Nat × Int
  | 0, c, e => (c, e)
  | f + 1, c, e =>
    if c % 10 = 0 ∧ c ≠ 0 ∧ 34 < digitsN c then stripTZOver f (c / 10) (e + 1) else (c, e)

/-- Fuel-indexed multiplicity of `p` in `n`. -/
def padicCountFuel : Nat → Nat → Nat → Nat
  | 0, _, _ => 0
  | f + 1, p, n => if n ≠ 0 ∧ n % p = 0 ∧ 2 ≤ p then padicCountFuel f p (n / p) + 1 else 0

/-- Multiplicity of `p` in `n` (for `p ≥ 2`; fuel `n` bounds it). -/
def padicCount (p n : Nat) : Nat := padicCountFuel n p n

/-- Final rounding step of an inexact decimal quotient: `num / den` lies in
`[10^33, 10^34)`; round to the nearest integer, ties to even, and absorb a
rounding carry into the exponent. -/
def divRound34 (num den : Nat) (f : Int) : Decimal128 :=
  let q := num / den
  let r := num % den
  let q2 :=
    if 2 * r < den then q else if den < 2 * r then q + 1 else if q % 2 = 0 then q else q + 1
  if digitsN q2 ≤ 34 then ⟨(q2 : Nat), f⟩ else ⟨((q2 / 10 : Nat) : Int), f + 1⟩

/-- Apply the quotient's sign to an unsigned result. -/
def signApply (negr : Bool) (d : Decimal128) : Decimal128 :=
  if negr then ⟨-d.coeff, d.exponent⟩ else d

/-- The primitive's division (`/` on `Decimal128`): `none` models the
non-finite result of a zero divisor (NaN or infinity).  An exact quotient
keeps the exponent as close to the ideal `e₁ − e₂` as its trailing zeros
allow; an inexact quotient is correctly rounded to 34 significant digits,
ties to even. -/
def Decimal128.div (a b : Decimal128) : Option Decimal128 :=
  if b.coeff = 0 then none
  else if a.coeff = 0 then some ⟨0, a.exponent - b.exponent⟩
  else
    let negr : Bool := decide (a.coeff < 0) != decide (b.coeff < 0)
    let ideal := a.exponent - b.exponent
    let g := Nat.gcd a.coeff.natAbs b.coeff.natAbs
    let n1 := a.coeff.natAbs / g
    let d1 := b.coeff.natAbs / g
    let x2 := padicCount 2 d1
    let y5 := padicCount 5 d1
    if d1 = 2 ^ x2 * 5 ^ y5 then
      let m := max x2 y5
      let c0 := n1 * 2 ^ (m - x2) * 5 ^ (m - y5)
      let p1 := stripTZBelow c0 c0 (ideal - (m : Int)) ideal
      let p2 := stripTZOver p1.1 p1.1 p1.2
      some (signApply negr (Decimal128.roundSig 34 ⟨(p2.1 : Nat), p2.2⟩))
    else
      let t1 := digitsN n1
      let t2 := digitsN d1
      let j : Int := 33 + (t2 : Int) - (t1 : Int)
      let num := n1 * 10 ^ j.toNat
      let den := d1 * 10 ^ (-j).toNat
      if digitsN (num / den) ≤ 33 then
        some (signApply negr (divRound34 (num * 10) den (ideal - j - 1)))
      else
        some (signApply negr (divRound34 num den (ideal - j)))

/-- Fuel-indexed Newton iteration for the integer square root, descending
from the initial guess until the sequence stops decreasing. -/
def isqrtAux : Nat → Nat → Nat → Nat
  | 0, _, x => x
  | f + 1, n, x =>
    let x2 := (x + n / x) / 2
    if x2 < x then isqrtAux f n x2 else x

/-- Floor integer square root (kernel-computable Newton iteration). -/
def isqrtN (n : Nat) : Nat := if n ≤ 1 then n else isqrtAux n n n

namespace decimal

/-- Loop body iteration of `with_min_digits` (`src/decimal.rs:15-22`):
while the digit count is below the target, rescale one decimal place finer.
The fuel argument makes the unbounded source loop structural; a terminating
source run of `k` iterations is reproduced by any fuel `≥ k`. -/
def with_min_digits_fuel : Nat → Decimal128 → Nat → Decimal128
  | 0, d, _ => d
  | f + 1, d, digits =>
    if d.digits < digits then with_min_digits_fuel f (d.rescaleHU (d.exponent - 1)) digits else d

/-- `with_min_digits` (`src/decimal.rs:15-22`) with fuel equal to the
target digit count, which bounds every terminating run of the source loop
(each iteration on a nonzero coefficient adds exactly one digit). -/
def with_min_digits (d : Decimal128) (digits : Nat) : Decimal128 :=
  with_min_digits_fuel digits d digits

/-- Loop body iteration of `with_max_digits` (`src/decimal.rs:24-31`):
while the digit count exceeds the target, rescale one decimal place
coarser under round-half-up. -/
def with_max_digits_fuel : Nat → Decimal128 → Nat → Decimal128
  | 0, d, _ => d
  | f + 1, d, digits =>
    if digits < d.digits then with_max_digits_fuel f (d.rescaleHU (d.exponent + 1)) digits else d

/-- `with_max_digits` (`src/decimal.rs:24-31`) with fuel
`|coeff| + 1`, which bounds every terminating run of the source loop (each
iteration on a target `≥ 1` strictly shrinks the coefficient). -/
def with_max_digits (d : Decimal128) (digits : Nat) : Decimal128 :=
  with_max_digits_fuel (d.coeff.natAbs + 1) d digits

/-- `with_digits` (`src/decimal.rs:5-13`): raise then lower the digit count
to the target, each under round-half-up. -/
def with_digits (d : Decimal128) (digits : Nat) : Decimal128 :=
  with_max_digits (with_min_digits d digits) digits

/-- Modelled from the spec: the working precision of the square-root
wrapper, "a decimal representation with at least 12 working digits"
(`Decimal<12>` of the external crate, whose context is not part of this
repository). -/
def sqrtPrec : Nat := 12

/-- Core of `sqrt` (`src/decimal.rs:33-40`) on a non-negative operand:
square root at `sqrtPrec` working digits.  An exact root within the
precision is returned exactly at the ideal exponent `⌊e/2⌋`; otherwise the
root is rounded to `sqrtPrec` significant digits, half-up, per the spec's
description of the wrapper.  The final text round-trip of the source
(`Decimal128::from_str(&dec.to_string())`) is exact and therefore not a
separate step of the model. -/
def sqrtCore (d : Decimal128) : Decimal128 :=
  let c0 := d.coeff.natAbs
  let cE := if d.exponent % 2 = 0 then c0 else 10 * c0
  let eE := if d.exponent % 2 = 0 then d.exponent else d.exponent - 1
  let eh := Int.ediv eE 2
  if c0 = 0 then ⟨0, eh⟩
  else
    let m := isqrtN cE
    if m * m = cE ∧ digitsN m ≤ sqrtPrec then ⟨(m : Nat), eh⟩
    else
      let t := digitsN cE
      let k : Int := (sqrtPrec : Int) - (((t + 1) / 2 : Nat) : Int)
      if 0 ≤ k then
        let n := cE * 10 ^ (2 * k.toNat)
        let s := isqrtN n
        let r := if 4 * n < (2 * s + 1) ^ 2 then s else s + 1
        if digitsN r ≤ sqrtPrec then ⟨(r : Nat), eh - k⟩
        else ⟨((r / 10 : Nat) : Int), eh - k + 1⟩
      else
        let j := (-k).toNat
        let n := cE / 10 ^ (2 * j)
        let s := isqrtN n
        let r := if 4 * cE < (2 * s + 1) ^ 2 * 10 ^ (2 * j) then s else s + 1
        if digitsN r ≤ sqrtPrec then ⟨(r : Nat), eh + (j : Int)⟩
        else ⟨((r / 10 : Nat) : Int), eh + (j : Int) + 1⟩

/-- `sqrt` (`src/decimal.rs:33-40`): the precision-boosted square root.
`none` models the non-finite (NaN) result on a negative operand. -/
def sqrt (d : Decimal128) : Option Decimal128 :=
  if d.coeff < 0 then none else some (sqrtCore d)

end decimal

/-- Character of a decimal digit value below ten. -/
def digitChar (n : Nat) : Char := Char.ofNat (48 + n)

/-- Numeric value of a decimal digit character. -/
def digitVal (c : Char) : Nat := c.toNat - 48

/-- Decimal digit test of the primitive's numeric-string grammar. -/
def isDigitCh (c : Char) : Bool := Nat.ble 48 c.toNat && Nat.ble c.toNat 57

/-- Fuel-indexed digit characters of a natural number, least significant
first. -/
def natCharsAux : Nat → Nat → List Char
  | 0, _ => []
  | f + 1, n => if n = 0 then [] else digitChar (n % 10) :: natCharsAux f (n / 10)

/-- Digit characters of a natural number, most significant first (empty
for `0`). -/
def natChars (n : Nat) : List Char := (natCharsAux (n + 1) n).reverse

/-- Digit characters of a natural number, most significant first, with
`0` rendered as `"0"`. -/
def natCharsNN (n : Nat) : List Char := if n = 0 then ['0'] else natChars n

/-- Value of a string of digit characters, most significant first. -/
def parseNatF (l : List Char) : Nat := l.foldl (fun a c => 10 * a + digitVal c) 0

/-- Modelled from the spec: the primitive's native textual form (the `dec`
crate's `Display`, decNumber to-scientific-string, not part of this
repository): plain notation when the exponent is at most zero and the
adjusted exponent is at least `-6`, exponential notation otherwise,
rendering the coefficient and exponent exactly as stored. -/
def Decimal128.toChars (d : Decimal128) : List Char :=
  let sgn : List Char := if d.coeff < 0 then ['-'] else []
  let ds := natCharsNN d.coeff.natAbs
  let n : Int := (ds.length : Int)
  let adj : Int := d.exponent + n - 1
  if d.exponent ≤ 0 ∧ -6 ≤ adj then
    if d.exponent = 0 then sgn ++ ds
    else if -d.exponent < n then
      sgn ++ (ds.take (n + d.exponent).toNat ++ '.' :: ds.drop (n + d.exponent).toNat)
    else sgn ++ '0' :: '.' :: (List.replicate (-d.exponent - n).toNat '0' ++ ds)
  else
    sgn ++ ds.take 1 ++ (if ds.length ≤ 1 then [] else '.' :: ds.drop 1)
      ++ 'E' :: (if adj < 0 then '-' else '+') :: natCharsNN adj.natAbs

/-- Optional leading sign of the numeric-string grammar. -/
def takeSign : List Char → Bool × List Char
  | [] => (false, [])
  | c :: cs => if c = '-' then (true, cs) else if c = '+' then (false, cs) else (false, c :: cs)

/-- Longest leading run of digit characters and the remainder. -/
def spanDigits (cs : List Char) : List Char × List Char :=
  (cs.takeWhile isDigitCh, cs.dropWhile isDigitCh)

/-- Fractional digits after an optional decimal point. -/
def splitFrac : List Char → List Char × List Char
  | [] => ([], [])
  | c :: cs => if c = '.' then spanDigits cs else ([], c :: cs)

/-- Optional exponent part `E`/`e`, optional sign, digits; `none` on a
malformed tail. -/
def parseExpPart : List Char → Option Int
  | [] => some 0
  | c :: cs =>
    if c = 'E' ∨ c = 'e' then
      let s := takeSign cs
      let ed := spanDigits s.2
      if ed.1.isEmpty ∨ ¬ ed.2.isEmpty then none
      else some (if s.1 then -(parseNatF ed.1 : Int) else (parseNatF ed.1 : Int))
    else none

/-- Modelled from the spec: the primitive's `from_str` (decNumber
from-string, not part of this repository) on finite numeric strings:
optional sign, digits with at most one point and at least one digit,
optional exponent; any violation is a generic parse failure.  The
non-finite literals (`NaN`, `Infinity`) are outside the model. -/
def parseDecChars (cs : List Char) : Option Decimal128 :=
  let s := takeSign cs
  let ipr := spanDigits s.2
  let fpr := splitFrac ipr.2
  if ipr.1.isEmpty ∧ fpr.1.isEmpty then none
  else
    (parseExpPart fpr.2).map fun e =>
      ⟨if s.1 then -(parseNatF (ipr.1 ++ fpr.1) : Int) else (parseNatF (ipr.1 ++ fpr.1) : Int),
        e - (fpr.1.length : Int)⟩

/-- First occurrence of a separator character: the pieces before and after
(`str::split_once`). -/
def splitOnceChar (sep : Char) : List Char → Option (List Char × List Char)
  | [] => none
  | c :: cs =>
    if c = sep then some ([], cs)
    else (splitOnceChar sep cs).map fun p => (c :: p.1, p.2)

/-- Whitespace trimming at both ends (`str::trim`). -/
def trimChars (l : List Char) : List Char :=
  ((l.dropWhile Char.isWhitespace).reverse.dropWhile Char.isWhitespace).reverse

/-- The sole entity of the library (`src/lib.rs:13-17`): a central value
and an uncertainty, both decimals. -/
structure UncertainDecimal where
  value : Decimal128
  uncertainty : Decimal128
deriving DecidableEq

namespace UncertainDecimal

/-- `UncertainDecimal::canonical` (`src/lib.rs:26-38`): round the
uncertainty to one significant digit; if the value's exponent is at least
as fine, quantize the value to the uncertainty's exponent, otherwise
replace the uncertainty by `1` at the value's own exponent. -/
def canonical (x : UncertainDecimal) : UncertainDecimal :=
  if x.value.exponent ≤ (decimal.with_max_digits x.uncertainty.canonicalEnc 1).exponent then
    ⟨x.value.quantizeHU (decimal.with_max_digits x.uncertainty.canonicalEnc 1),
      decimal.with_max_digits x.uncertainty.canonicalEnc 1⟩
  else
    ⟨x.value, ⟨1, x.value.exponent⟩⟩

/-- `UncertainDecimal::with_digits` (`src/lib.rs:40-44`): re-round the
central value to the requested significant-digit count, then
re-canonicalize. -/
def with_digits (x : UncertainDecimal) (digits : Nat) : UncertainDecimal :=
  canonical ⟨decimal.with_digits x.value digits, x.uncertainty⟩

/-- `Neg for UncertainDecimal` (`src/lib.rs:102-111`): negate the value,
keep the uncertainty; no canonicalization. -/
def neg (x : UncertainDecimal) : UncertainDecimal :=
  ⟨x.value.neg, x.uncertainty⟩

/-- `Add for UncertainDecimal` (`src/lib.rs:47-62`): sum of values rounded
to the smaller operand digit count, quadrature combination of the
uncertainties, then canonicalization. -/
def add (a b : UncertainDecimal) : Option UncertainDecimal :=
  (decimal.sqrt ((a.uncertainty.mul a.uncertainty).add (b.uncertainty.mul b.uncertainty))).map
    fun u =>
      canonical
        ⟨decimal.with_digits (a.value.add b.value) (min a.value.digits b.value.digits), u⟩

/-- `Sub for UncertainDecimal` (`src/lib.rs:113-119`): addition of the
negation. -/
def sub (a b : UncertainDecimal) : Option UncertainDecimal :=
  a.add b.neg

/-- `Mul for UncertainDecimal` (`src/lib.rs:83-100`): product of values
rounded to the smaller operand digit count; relative-error quadrature
scaled back by both values; canonicalization.  `none` models the
non-finite propagation of a zero central value. -/
def mul (a b : UncertainDecimal) : Option UncertainDecimal := do
  let ta1 ← (a.uncertainty.mul a.uncertainty).div a.value
  let ta2 ← ta1.div a.value
  let tb1 ← (b.uncertainty.mul b.uncertainty).div b.value
  let tb2 ← tb1.div b.value
  let s ← decimal.sqrt (ta2.add tb2)
  pure (canonical
    ⟨decimal.with_digits (a.value.mul b.value) (min a.value.digits b.value.digits),
      (s.mul a.value).mul b.value⟩)

/-- `Div for UncertainDecimal` (`src/lib.rs:64-81`): quotient of values
rounded to the smaller operand digit count; relative-error quadrature
scaled by the quotient; canonicalization. -/
def div (a b : UncertainDecimal) : Option UncertainDecimal := do
  let v ← a.value.div b.value
  let ta1 ← (a.uncertainty.mul a.uncertainty).div a.value
  let ta2 ← ta1.div a.value
  let tb1 ← (b.uncertainty.mul b.uncertainty).div b.value
  let tb2 ← tb1.div b.value
  let s ← decimal.sqrt (ta2.add tb2)
  let u ← (s.mul a.value).div b.value
  pure (canonical ⟨decimal.with_digits v (min a.value.digits b.value.digits), u⟩)

/-- Loop body of `Product for UncertainDecimal` (`src/lib.rs:121-137`):
multiply the running product by the value and add the squared relative
uncertainty of the element to the accumulator. -/
def productStep (st : Decimal128 × Decimal128) (x : UncertainDecimal) :
    Option (Decimal128 × Decimal128) := do
  let t1 ← (x.uncertainty.mul x.uncertainty).div x.value
  let t2 ← t1.div x.value
  pure (st.1.mul x.value, st.2.add t2)

/-- `Product for UncertainDecimal` (`src/lib.rs:121-137`): both the running
product and the relative-variance accumulator are seeded at `ONE`; the
final uncertainty is `sqrt(accumulator) * product`, and the pair is
canonicalized. -/
def product (l : List UncertainDecimal) : Option UncertainDecimal := do
  let st ← l.foldlM productStep (Decimal128.ONE, Decimal128.ONE)
  let r ← decimal.sqrt st.2
  pure (canonical ⟨st.1, r.mul st.1⟩)

/-- Loop body of `Sum for UncertainDecimal` (`src/lib.rs:139-155`). -/
def sumStep (st : Decimal128 × Decimal128) (x : UncertainDecimal) :
    Decimal128 × Decimal128 :=
  (st.1.add x.value, st.2.add (x.uncertainty.mul x.uncertainty))

/-- `Sum for UncertainDecimal` (`src/lib.rs:139-155`): sums seeded at
`ZERO`; uncertainty is the quadrature sum; the pair is canonicalized. -/
def sum (l : List UncertainDecimal) : Option UncertainDecimal :=
  (decimal.sqrt (l.foldl sumStep (Decimal128.ZERO, Decimal128.ZERO)).2).map
    fun r => canonical ⟨(l.foldl sumStep (Decimal128.ZERO, Decimal128.ZERO)).1, r⟩

/-- `Display for UncertainDecimal` (`src/lib.rs:19-23`): the two sides in
the primitive's native textual form around `" ± "`. -/
def formatChars (x : UncertainDecimal) : List Char :=
  x.value.toChars ++ ' ' :: '±' :: ' ' :: x.uncertainty.toChars

/-- `Display for UncertainDecimal` (`src/lib.rs:19-23`) as a string. -/
def format (x : UncertainDecimal) : String :=
  ⟨x.formatChars⟩

/-- `FromStr for UncertainDecimal` (`src/lib.rs:157-168`): split at the
first `±`, trim each side, parse each side as a decimal. -/
def from_str (s : String) : Option UncertainDecimal := do
  let p ← splitOnceChar '±' s.data
  let v ← parseDecChars (trimChars p.1)
  let u ← parseDecChars (trimChars p.2)
  pure ⟨v, u⟩

end UncertainDecimal

/-- `average` (`src/lib.rs:170-188`): arithmetic mean and Bessel-corrected
sample standard deviation of plain measurements.  The result is NOT
canonicalized by the source.  `none` models a non-finite outcome: the
division by `len` for an empty input, or the division by `len - 1 = 0`
for a single measurement. -/
def average (decs : List Decimal128) : Option UncertainDecimal := do
  let avg ← (decs.foldl Decimal128.add Decimal128.ZERO).div ⟨(decs.length : Int), 0⟩
  let q ← (decs.foldl (fun s d => s.add ((d.sub avg).mul (d.sub avg)))
      Decimal128.ZERO).div
    (Decimal128.sub ⟨(decs.length : Int), 0⟩ Decimal128.ONE)
  let sd ← decimal.sqrt q
  pure ⟨avg, sd⟩

/-- Rational value denoted by a decimal of the model. -/
def Decimal128.toQ (d : Decimal128) : ℚ :=
  (d.coeff : ℚ) * (10 : ℚ) ^ d.exponent

/-- The canonical-form invariants of the spec: value and uncertainty share
a decimal place, and the uncertainty carries one significant digit or is
`1` at the value's decimal place (degenerate branch). -/
def IsCanonicalForm (x : UncertainDecimal) : Prop :=
  x.value.exponent = x.uncertainty.exponent ∧
    (x.uncertainty.digits = 1 ∨ x.uncertainty = ⟨1, x.value.exponent⟩)

instance (x : UncertainDecimal) : Decidable (IsCanonicalForm x) := by
  unfold IsCanonicalForm
  infer_instance

/-- Spec-side running product of the product reducer: the fold of the
central values alone, seeded at `ONE`. -/
def runningProduct (l : List UncertainDecimal) : Decimal128 :=
  l.foldl (fun p x => p.mul x.value) Decimal128.ONE

/-- Spec-side squared relative uncertainty `(uᵢ/vᵢ)²` of one element,
computed as the source does (`u*u/v/v`). -/
def relVarTerm (x : UncertainDecimal) : Option Decimal128 :=
  ((x.uncertainty.mul x.uncertainty).div x.value).bind fun t => t.div x.value

/-- Spec-side relative-variance accumulator of the product reducer: the
fold of the squared relative uncertainties alone, seeded at `ONE`. -/
def relVarAcc (l : List UncertainDecimal) : Option Decimal128 :=
  l.foldlM (fun s x => (relVarTerm x).map fun t => s.add t) Decimal128.ONE

/-- Spec-side sum of a list of plain decimals, as the source folds it. -/
def sumFold (l : List Decimal128) : Decimal128 :=
  l.foldl Decimal128.add Decimal128.ZERO

/-- Spec-side sum of squared deviations from `avg`, as the source folds
it. -/
def sqDevSum (l : List Decimal128) (avg : Decimal128) : Decimal128 :=
  l.foldl (fun s d => s.add ((d.sub avg).mul (d.sub avg))) Decimal128.ZERO

/-!  Theorems. -/

theorem digCount_congr : ∀ (n f g : Nat), n < f → n < g → digCount f n = digCount g n := by
  intro n
  induction n using Nat.strong_induction_on with
  | _ n ih =>
    intro f g hf hg
    match f, g with
    | f + 1, g + 1 =>
      by_cases h : n = 0
      · simp [digCount, h]
      · have hlt : n / 10 < n := Nat.div_lt_self (Nat.pos_of_ne_zero h) (by omega)
        simp only [digCount, h, if_false]
        rw [ih (n / 10) hlt f g (by omega) (by omega)]

theorem digitsN_succ (n : Nat) (h : n ≠ 0) : digitsN n = digitsN (n / 10) + 1 := by
  have hlt : n / 10 < n := Nat.div_lt_self (Nat.pos_of_ne_zero h) (by omega)
  unfold digitsN
  conv_lhs => rw [digCount, if_neg h]
  rw [digCount_congr (n / 10) n (n / 10 + 1) (by omega) (by omega)]

theorem digitsN_zero : digitsN 0 = 0 := rfl

theorem digitsN_pos (n : Nat) (h : n ≠ 0) : 1 ≤ digitsN n := by
  rw [digitsN_succ n h]; omega

theorem digitsN_le_one (n : Nat) (h : n < 10) : digitsN n ≤ 1 := by
  by_cases h0 : n = 0
  · simp [h0, digitsN_zero]
  · rw [digitsN_succ n h0, Nat.div_eq_of_lt h, digitsN_zero]

theorem ten_le_of_two_le_digitsN (n : Nat) (h : 2 ≤ digitsN n) : 10 ≤ n := by
  by_contra hn
  have := digitsN_le_one n (by omega)
  omega

theorem digitsN_ten_mul (n : Nat) (h : n ≠ 0) : digitsN (10 * n) = digitsN n + 1 := by
  have h10 : 10 * n ≠ 0 := by positivity
  rw [digitsN_succ _ h10, Nat.mul_div_cancel_left n (by omega)]

theorem natAbs_sign_mul (a : Int) (k : Nat) (h : a ≠ 0) : (a.sign * (k : Int)).natAbs = k := by
  rw [Int.natAbs_mul, Int.natAbs_sign_of_nonzero h, one_mul, Int.natAbs_ofNat]

theorem natAbs_roundHalfUpDiv (a : Int) (b : Nat) (h : a ≠ 0) :
    (roundHalfUpDiv a b).natAbs = (2 * a.natAbs + b) / (2 * b) := by
  unfold roundHalfUpDiv
  exact natAbs_sign_mul a _ h

theorem roundHalfUpDiv_ten_shrink (a : Int) (h : a ≠ 0) (h10 : 10 ≤ a.natAbs) :
    (roundHalfUpDiv a 10).natAbs < a.natAbs := by
  rw [natAbs_roundHalfUpDiv a 10 h]
  rw [Nat.div_lt_iff_lt_mul (by omega : 0 < 2 * 10)]
  omega

theorem rescaleHU_exponent (d : Decimal128) (e : Int) : (d.rescaleHU e).exponent = e := by
  unfold Decimal128.rescaleHU
  split <;> rfl

theorem rescaleHU_self (d : Decimal128) : d.rescaleHU d.exponent = d := by
  unfold Decimal128.rescaleHU
  rw [if_pos le_rfl]
  simp

theorem rescaleHU_rescaleHU (d : Decimal128) (e : Int) :
    (d.rescaleHU e).rescaleHU e = d.rescaleHU e := by
  have h := rescaleHU_self (d.rescaleHU e)
  rwa [rescaleHU_exponent] at h

theorem Decimal128.digits_pos (d : Decimal128) : 1 ≤ d.digits := by
  unfold Decimal128.digits
  split
  · exact le_rfl
  · exact digitsN_pos _ (Int.natAbs_ne_zero.mpr (by assumption))

theorem with_max_digits_fuel_le (f : Nat) :
    ∀ (d : Decimal128) (n : Nat), 1 ≤ n → d.coeff.natAbs < f →
      (decimal.with_max_digits_fuel f d n).digits ≤ n := by
  induction f with
  | zero => intro d n _ h; omega
  | succ f ih =>
    intro d n hn hf
    rw [decimal.with_max_digits_fuel]
    by_cases hgt : n < d.digits
    · rw [if_pos hgt]
      have hc : d.coeff ≠ 0 := by
        intro h0
        have : d.digits = 1 := by unfold Decimal128.digits; rw [if_pos h0]
        omega
      have h2 : 2 ≤ d.digits := by omega
      have h10 : 10 ≤ d.coeff.natAbs := by
        apply ten_le_of_two_le_digitsN
        unfold Decimal128.digits at h2
        rwa [if_neg hc] at h2
      have hstep : d.rescaleHU (d.exponent + 1)
          = ⟨roundHalfUpDiv d.coeff 10, d.exponent + 1⟩ := by
        unfold Decimal128.rescaleHU
        rw [if_neg (by omega)]
        norm_num
      rw [hstep]
      apply ih _ n hn
      simp only
      have := roundHalfUpDiv_ten_shrink d.coeff hc h10
      omega
    · rw [if_neg hgt]; omega

theorem with_max_digits_le (d : Decimal128) (n : Nat) (hn : 1 ≤ n) :
    (decimal.with_max_digits d n).digits ≤ n :=
  with_max_digits_fuel_le _ d n hn (by omega)

theorem with_max_digits_one (d : Decimal128) : (decimal.with_max_digits d 1).digits = 1 :=
  le_antisymm (with_max_digits_le d 1 le_rfl) (Decimal128.digits_pos _)

theorem with_max_digits_of_le (d : Decimal128) (n : Nat) (h : d.digits ≤ n) :
    decimal.with_max_digits d n = d := by
  unfold decimal.with_max_digits decimal.with_max_digits_fuel
  rw [if_neg (by omega)]

theorem canonical_alignment (x : UncertainDecimal) :
    x.canonical.value.exponent = x.canonical.uncertainty.exponent := by
  unfold UncertainDecimal.canonical
  split
  · exact rescaleHU_exponent _ _
  · rfl

theorem canonical_digit_inv (x : UncertainDecimal) :
    x.canonical.uncertainty.digits = 1 ∨
      x.canonical.uncertainty = ⟨1, x.canonical.value.exponent⟩ := by
  unfold UncertainDecimal.canonical
  split
  · exact Or.inl (with_max_digits_one _)
  · exact Or.inr rfl

theorem canonical_idempotent (x : UncertainDecimal) : x.canonical.canonical = x.canonical := by
  unfold UncertainDecimal.canonical
  split
  · set u := decimal.with_max_digits x.uncertainty.canonicalEnc 1 with hu
    have hd : u.digits = 1 := with_max_digits_one _
    have hstable : decimal.with_max_digits u.canonicalEnc 1 = u :=
      with_max_digits_of_le _ 1 (by rw [Decimal128.canonicalEnc, hd])
    have hexp : (x.value.quantizeHU u).exponent = u.exponent :=
      rescaleHU_exponent _ _
    rw [hstable, if_pos (by rw [hexp])]
    have : (x.value.quantizeHU u).quantizeHU u = x.value.quantizeHU u := by
      unfold Decimal128.quantizeHU
      exact rescaleHU_rescaleHU _ _
    rw [this]
  · have hd : (⟨1, x.value.exponent⟩ : Decimal128).digits = 1 := by
      show (if (1 : Int) = 0 then 1 else digitsN (1 : Int).natAbs) = 1
      rw [if_neg one_ne_zero]
      rfl
    have hstable : decimal.with_max_digits
        (Decimal128.canonicalEnc ⟨1, x.value.exponent⟩) 1 = ⟨1, x.value.exponent⟩ :=
      with_max_digits_of_le _ 1 (le_of_eq hd)
    simp only [hstable]
    rw [if_pos (le_refl x.value.exponent)]
    have : x.value.quantizeHU ⟨1, x.value.exponent⟩ = x.value := rescaleHU_self _
    rw [this]

/-- C1: for every `UncertainDecimal x`, `canonical x` satisfies the
alignment invariant: the exponent (decimal place of the least-significant
digit) of `value` equals the exponent of `uncertainty`. -/
theorem C1_canonical_alignment (x : UncertainDecimal) :
    x.canonical.value.exponent = x.canonical.uncertainty.exponent :=
  canonical_alignment x

/-- C2: for every `UncertainDecimal x`, `canonical x` satisfies the digit
invariant: its uncertainty has exactly one significant digit, or (degenerate
branch) equals exactly `1` scaled to the value's own decimal place. -/
theorem C2_canonical_digit (x : UncertainDecimal) :
    x.canonical.uncertainty.digits = 1 ∨
      x.canonical.uncertainty = ⟨1, x.canonical.value.exponent⟩ :=
  canonical_digit_inv x

/-- C3: the canonicalizer is idempotent: `canonical (canonical x) =
canonical x` for every `x`, so canonicalizing an already-canonical pair is
a no-op. -/
theorem C3_canonical_idempotent (x : UncertainDecimal) :
    x.canonical.canonical = x.canonical :=
  canonical_idempotent x

theorem lt_ten_pow_digitsN : ∀ n : Nat, n < 10 ^ digitsN n := by
  intro n
  induction n using Nat.strong_induction_on with
  | _ n ih =>
    by_cases h : n = 0
    · simp [h, digitsN_zero]
    · rw [digitsN_succ n h, pow_succ]
      have hlt : n / 10 < n := Nat.div_lt_self (Nat.pos_of_ne_zero h) (by omega)
      have := ih (n / 10) hlt
      omega

theorem ten_pow_le_digitsN (n : Nat) (h : n ≠ 0) : 10 ^ (digitsN n - 1) ≤ n := by
  induction n using Nat.strong_induction_on with
  | _ n ih =>
    by_cases h10 : n < 10
    · have h1 : digitsN n ≤ 1 := digitsN_le_one n h10
      have h2 : 1 ≤ digitsN n := digitsN_pos n h
      have : digitsN n = 1 := by omega
      rw [this]
      simpa using Nat.pos_of_ne_zero h
    · have hd : n / 10 ≠ 0 := by
        have : 1 ≤ n / 10 := (Nat.one_le_div_iff (by omega)).mpr (by omega)
        omega
      have hlt : n / 10 < n := Nat.div_lt_self (Nat.pos_of_ne_zero h) (by omega)
      have := ih (n / 10) hlt hd
      rw [digitsN_succ n h]
      have hp : 1 ≤ digitsN (n / 10) := digitsN_pos _ hd
      have hstep : 10 ^ (digitsN (n / 10) - 1 + 1) ≤ 10 * (n / 10) := by
        rw [pow_succ]
        omega
      calc 10 ^ (digitsN (n / 10) + 1 - 1) = 10 ^ (digitsN (n / 10) - 1 + 1) := by
            congr 1
            omega
        _ ≤ 10 * (n / 10) := hstep
        _ ≤ n := by omega

theorem roundHalfEvenDiv_nonneg (a : Int) (b : Nat) (h : 0 ≤ a) :
    0 ≤ roundHalfEvenDiv a b := by
  unfold roundHalfEvenDiv
  have hs : 0 ≤ a.sign := Int.sign_nonneg.mpr h
  positivity

theorem roundHalfEvenDiv_of_pos (a : Int) (b : Nat) (h : 0 < a) :
    ∃ q2 : Nat, roundHalfEvenDiv a b = (q2 : Int) ∧ a.natAbs / b ≤ q2 := by
  unfold roundHalfEvenDiv
  rw [Int.sign_eq_one_of_pos h, one_mul]
  refine ⟨_, rfl, ?_⟩
  split
  · exact le_rfl
  · split
    · omega
    · split <;> omega

theorem roundSig_coeff_nonneg (p : Nat) (d : Decimal128) (h : 0 ≤ d.coeff) :
    0 ≤ (d.roundSig p).coeff := by
  simp only [Decimal128.roundSig]
  split
  · exact h
  · have hc := roundHalfEvenDiv_nonneg d.coeff (10 ^ (d.digits - p)) h
    split
    · exact hc
    · simp only
      exact Int.ediv_nonneg hc (by omega)

theorem roundSig_coeff_pos (p : Nat) (d : Decimal128) (hp : 1 ≤ p) (h : 0 < d.coeff) :
    0 < (d.roundSig p).coeff := by
  simp only [Decimal128.roundSig]
  split
  · exact h
  · rename_i hdig
    have hne : d.coeff ≠ 0 := by omega
    have hdig2 : d.digits = digitsN d.coeff.natAbs := by
      unfold Decimal128.digits
      rw [if_neg hne]
    have hposn : d.coeff.natAbs ≠ 0 := Int.natAbs_ne_zero.mpr hne
    have hlow : 10 ^ (d.digits - 1) ≤ d.coeff.natAbs := by
      rw [hdig2]
      exact ten_pow_le_digitsN _ hposn
    have hkle : 10 ^ (d.digits - p) ≤ d.coeff.natAbs := by
      calc 10 ^ (d.digits - p) ≤ 10 ^ (d.digits - 1) :=
            Nat.pow_le_pow_right (by omega) (by omega)
        _ ≤ d.coeff.natAbs := hlow
    obtain ⟨q2, hq2, hge⟩ := roundHalfEvenDiv_of_pos d.coeff (10 ^ (d.digits - p)) h
    have hq2pos : 1 ≤ q2 := by
      have : 1 ≤ d.coeff.natAbs / 10 ^ (d.digits - p) :=
        (Nat.one_le_div_iff (by positivity)).mpr hkle
      omega
    rw [hq2]
    split
    · show (0 : Int) < ((q2 : Nat) : Int)
      exact_mod_cast hq2pos
    · rename_i hwide
      simp only [not_le] at hwide
      have h10 : 10 ≤ q2 := ten_le_of_two_le_digitsN q2 (by
        rw [Int.natAbs_ofNat] at hwide
        omega)
      show (0 : Int) < (q2 : Int) / 10
      omega

theorem mul_self_coeff_nonneg (x : Decimal128) : 0 ≤ (x.mul x).coeff := by
  unfold Decimal128.mul
  exact roundSig_coeff_nonneg _ _ (mul_self_nonneg _)

theorem add_coeff_nonneg (a b : Decimal128) (ha : 0 ≤ a.coeff) (hb : 0 ≤ b.coeff) :
    0 ≤ (a.add b).coeff := by
  unfold Decimal128.add
  apply roundSig_coeff_nonneg
  have h1 : (0 : Int) ≤ (10 : Int) ^ (a.exponent - min a.exponent b.exponent).toNat := by
    positivity
  have h2 : (0 : Int) ≤ (10 : Int) ^ (b.exponent - min a.exponent b.exponent).toNat := by
    positivity
  simp only
  exact add_nonneg (mul_nonneg ha h1) (mul_nonneg hb h2)

theorem sqrt_eq_some (d : Decimal128) (h : 0 ≤ d.coeff) :
    decimal.sqrt d = some (decimal.sqrtCore d) := by
  unfold decimal.sqrt
  rw [if_neg (not_lt.mpr h)]

theorem canonical_form (y : UncertainDecimal) : IsCanonicalForm y.canonical :=
  ⟨canonical_alignment y, canonical_digit_inv y⟩

theorem add_some_canonical (a b r : UncertainDecimal) (h : a.add b = some r) :
    ∃ y : UncertainDecimal, r = y.canonical := by
  unfold UncertainDecimal.add at h
  rw [Option.map_eq_some'] at h
  obtain ⟨u, _, hr⟩ := h
  exact ⟨_, hr.symm⟩

theorem mul_some_canonical (a b r : UncertainDecimal) (h : a.mul b = some r) :
    ∃ y : UncertainDecimal, r = y.canonical := by
  unfold UncertainDecimal.mul at h
  simp only [Option.bind_eq_some', Option.pure_def, Option.some.injEq, bind] at h
  obtain ⟨t1, _, t2, _, u1, _, u2, _, s, _, hr⟩ := h
  exact ⟨_, hr.symm⟩

theorem div_some_canonical (a b r : UncertainDecimal) (h : a.div b = some r) :
    ∃ y : UncertainDecimal, r = y.canonical := by
  unfold UncertainDecimal.div at h
  simp only [Option.bind_eq_some', Option.pure_def, Option.some.injEq, bind] at h
  obtain ⟨v, _, t1, _, t2, _, u1, _, u2, _, s, _, u, _, hr⟩ := h
  exact ⟨_, hr.symm⟩

theorem product_some_canonical (l : List UncertainDecimal) (r : UncertainDecimal)
    (h : UncertainDecimal.product l = some r) : ∃ y : UncertainDecimal, r = y.canonical := by
  unfold UncertainDecimal.product at h
  simp only [Option.bind_eq_some', Option.pure_def, Option.some.injEq, bind] at h
  obtain ⟨st, _, r2, _, hr⟩ := h
  exact ⟨_, hr.symm⟩

theorem sum_some_canonical (l : List UncertainDecimal) (r : UncertainDecimal)
    (h : UncertainDecimal.sum l = some r) : ∃ y : UncertainDecimal, r = y.canonical := by
  unfold UncertainDecimal.sum at h
  rw [Option.map_eq_some'] at h
  obtain ⟨u, _, hr⟩ := h
  exact ⟨_, hr.symm⟩

theorem add_uncertainty_sqrt_some (a b : UncertainDecimal) :
    decimal.sqrt ((a.uncertainty.mul a.uncertainty).add (b.uncertainty.mul b.uncertainty))
      = some (decimal.sqrtCore
          ((a.uncertainty.mul a.uncertainty).add (b.uncertainty.mul b.uncertainty))) :=
  sqrt_eq_some _ (add_coeff_nonneg _ _ (mul_self_coeff_nonneg _) (mul_self_coeff_nonneg _))

theorem productStep_eq (st : Decimal128 × Decimal128) (x : UncertainDecimal) :
    UncertainDecimal.productStep st x
      = (relVarTerm x).map fun t => (st.1.mul x.value, st.2.add t) := by
  unfold UncertainDecimal.productStep relVarTerm
  cases (x.uncertainty.mul x.uncertainty).div x.value with
  | none => rfl
  | some t1 =>
    show Option.bind (t1.div x.value) (fun t2 => some (st.1.mul x.value, st.2.add t2))
        = Option.map (fun t => (st.1.mul x.value, st.2.add t)) (t1.div x.value)
    cases t1.div x.value with
    | none => rfl
    | some t2 => rfl

theorem product_fold_split :
    ∀ (l : List UncertainDecimal) (p s : Decimal128),
      l.foldlM UncertainDecimal.productStep (p, s)
        = (l.foldlM (fun s2 x => (relVarTerm x).map fun t => s2.add t) s).map
            fun s2 => (l.foldl (fun q x => q.mul x.value) p, s2) := by
  intro l
  induction l with
  | nil => intro p s; rfl
  | cons x t ih =>
    intro p s
    rw [List.foldlM_cons, List.foldlM_cons, productStep_eq]
    cases relVarTerm x with
    | none => rfl
    | some tv =>
      simp only [Option.map_some']
      show t.foldlM UncertainDecimal.productStep (p.mul x.value, s.add tv) = _
      rw [ih]
      rfl

theorem divRound34_coeff_nonneg (num den : Nat) (f : Int) :
    0 ≤ (divRound34 num den f).coeff := by
  simp only [divRound34]
  repeat' split
  all_goals exact Int.ofNat_nonneg _

theorem div_eq_some (a b : Decimal128) (hb : b.coeff ≠ 0) : ∃ c, a.div b = some c := by
  simp only [Decimal128.div]
  rw [if_neg hb]
  split
  · exact ⟨_, rfl⟩
  · split
    · exact ⟨_, rfl⟩
    · split <;> exact ⟨_, rfl⟩

theorem div_nonneg_coeff (a b c : Decimal128) (ha : 0 ≤ a.coeff) (hb : 0 ≤ b.coeff)
    (h : a.div b = some c) : 0 ≤ c.coeff := by
  simp only [Decimal128.div] at h
  by_cases hb0 : b.coeff = 0
  · rw [if_pos hb0] at h
    cases h
  · rw [if_neg hb0] at h
    by_cases ha0 : a.coeff = 0
    · rw [if_pos ha0] at h
      obtain rfl := Option.some.inj h
      exact le_rfl
    · rw [if_neg ha0] at h
      have hna : decide (a.coeff < 0) = false := decide_eq_false (not_lt.mpr ha)
      have hnb : decide (b.coeff < 0) = false := decide_eq_false (not_lt.mpr hb)
      simp only [hna, hnb, show (false != false) = false from rfl, signApply,
        Bool.false_eq_true, if_false] at h
      split at h
      · obtain rfl := Option.some.inj h
        exact roundSig_coeff_nonneg _ _ (Int.ofNat_nonneg _)
      · split at h
        · obtain rfl := Option.some.inj h
          exact divRound34_coeff_nonneg _ _ _
        · obtain rfl := Option.some.inj h
          exact divRound34_coeff_nonneg _ _ _

theorem foldl_sqdev_nonneg (l : List Decimal128) (avg : Decimal128) :
    ∀ init : Decimal128, 0 ≤ init.coeff →
      0 ≤ (l.foldl (fun s d => s.add ((d.sub avg).mul (d.sub avg))) init).coeff := by
  induction l with
  | nil => intro init h; exact h
  | cons d t ih =>
    intro init h
    rw [List.foldl_cons]
    exact ih _ (add_coeff_nonneg _ _ h (mul_self_coeff_nonneg _))

theorem sub_one_int (n : Int) :
    Decimal128.sub ⟨n, 0⟩ Decimal128.ONE = Decimal128.roundSig 34 ⟨n - 1, 0⟩ := by
  unfold Decimal128.sub Decimal128.add Decimal128.neg Decimal128.ONE
  norm_num
  have h1 : n + -1 = n - 1 := by omega
  rw [h1]

theorem with_min_digits_fuel_ge (f : Nat) :
    ∀ (d : Decimal128) (n : Nat), d.coeff ≠ 0 → n ≤ d.digits + f →
      n ≤ (decimal.with_min_digits_fuel f d n).digits := by
  induction f with
  | zero => intro d n _ h; simpa [decimal.with_min_digits_fuel] using h
  | succ f ih =>
    intro d n hc hf
    rw [decimal.with_min_digits_fuel]
    by_cases hlt : d.digits < n
    · rw [if_pos hlt]
      have hstep : d.rescaleHU (d.exponent - 1)
          = ⟨d.coeff * 10, d.exponent - 1⟩ := by
        unfold Decimal128.rescaleHU
        rw [if_pos (by omega)]
        norm_num
      rw [hstep]
      have hc' : d.coeff * 10 ≠ 0 := by
        intro h0
        exact hc (by omega)
      have hdig : (⟨d.coeff * 10, d.exponent - 1⟩ : Decimal128).digits = d.digits + 1 := by
        unfold Decimal128.digits
        rw [if_neg hc', if_neg hc]
        have : (d.coeff * 10).natAbs = 10 * d.coeff.natAbs := by
          omega
        rw [this, digitsN_ten_mul _ (Int.natAbs_ne_zero.mpr hc)]
      exact ih ⟨d.coeff * 10, d.exponent - 1⟩ n hc' (by rw [hdig]; omega)
    · rw [if_neg hlt]
      omega

theorem with_min_fuel_zero_digits :
    ∀ (f : Nat) (e : Int), (decimal.with_min_digits_fuel f ⟨0, e⟩ 2).digits = 1 := by
  intro f
  induction f with
  | zero => intro e; rfl
  | succ f ih =>
    intro e
    rw [decimal.with_min_digits_fuel]
    have hd : (⟨0, e⟩ : Decimal128).digits = 1 := by
      unfold Decimal128.digits
      rw [if_pos rfl]
    rw [if_pos (by omega)]
    have hstep : (⟨0, e⟩ : Decimal128).rescaleHU ((⟨0, e⟩ : Decimal128).exponent - 1)
        = ⟨0, e - 1⟩ := by
      unfold Decimal128.rescaleHU
      rw [if_pos (by omega)]
      norm_num
    rw [hstep]
    exact ih (e - 1)

/-- C4 (amended): the four binary operators and the sum and product
reducers end in canonicalization, so every result they return satisfies the
canonical-form invariants; negation and the sample-statistics constructor
return their pair raw, without canonicalizing, and their results can
violate the invariants. -/
theorem C4_creation_paths :
    (∀ a b r : UncertainDecimal, a.add b = some r → IsCanonicalForm r) ∧
    (∀ a b r : UncertainDecimal, a.sub b = some r → IsCanonicalForm r) ∧
    (∀ a b r : UncertainDecimal, a.mul b = some r → IsCanonicalForm r) ∧
    (∀ a b r : UncertainDecimal, a.div b = some r → IsCanonicalForm r) ∧
    (∀ (l : List UncertainDecimal) (r : UncertainDecimal),
      UncertainDecimal.sum l = some r → IsCanonicalForm r) ∧
    (∀ (l : List UncertainDecimal) (r : UncertainDecimal),
      UncertainDecimal.product l = some r → IsCanonicalForm r) ∧
    (∀ x : UncertainDecimal, x.neg = ⟨x.value.neg, x.uncertainty⟩) ∧
    ¬ IsCanonicalForm (UncertainDecimal.neg ⟨⟨17775, -4⟩, ⟨6, -1⟩⟩) ∧
    average [⟨0, 0⟩, ⟨1, 0⟩] = some ⟨⟨5, -1⟩, ⟨707106781187, -12⟩⟩ ∧
    ¬ IsCanonicalForm ⟨⟨5, -1⟩, ⟨707106781187, -12⟩⟩ := by
  refine ⟨?_, ?_, ?_, ?_, ?_, ?_, fun x => rfl, by decide, by decide, by decide⟩
  · intro a b r h
    obtain ⟨y, rfl⟩ := add_some_canonical a b r h
    exact canonical_form y
  · intro a b r h
    obtain ⟨y, rfl⟩ := add_some_canonical a b.neg r h
    exact canonical_form y
  · intro a b r h
    obtain ⟨y, rfl⟩ := mul_some_canonical a b r h
    exact canonical_form y
  · intro a b r h
    obtain ⟨y, rfl⟩ := div_some_canonical a b r h
    exact canonical_form y
  · intro l r h
    obtain ⟨y, rfl⟩ := sum_some_canonical l r h
    exact canonical_form y
  · intro l r h
    obtain ⟨y, rfl⟩ := product_some_canonical l r h
    exact canonical_form y

/-- C4 counterexample: the claim includes negation and `average` among the
canonicalizing creation paths, but negating `1.7775 ± 0.6` returns
`-1.7775 ± 0.6`, which violates the alignment invariant, and
`average [0, 1]` returns `0.5 ± 0.707106781187`, whose uncertainty has
twelve significant digits. -/
theorem C4_neg_average_not_canonical :
    ¬ IsCanonicalForm (UncertainDecimal.neg ⟨⟨17775, -4⟩, ⟨6, -1⟩⟩) ∧
    average [⟨0, 0⟩, ⟨1, 0⟩] = some ⟨⟨5, -1⟩, ⟨707106781187, -12⟩⟩ ∧
    ¬ IsCanonicalForm ⟨⟨5, -1⟩, ⟨707106781187, -12⟩⟩ :=
  ⟨by decide, by decide, by decide⟩

/-- C4 witness: the addition `(1.8 ± 0.6) + (2000.0 ± 0.3)` returns a
result, and that result is in canonical form. -/
theorem C4_creation_paths_witness :
    UncertainDecimal.add ⟨⟨18, -1⟩, ⟨6, -1⟩⟩ ⟨⟨20000, -1⟩, ⟨3, -1⟩⟩
        = some ⟨⟨20, 2⟩, ⟨1, 2⟩⟩ ∧
    IsCanonicalForm ⟨⟨20, 2⟩, ⟨1, 2⟩⟩ :=
  ⟨by decide,
    C4_creation_paths.1 ⟨⟨18, -1⟩, ⟨6, -1⟩⟩ ⟨⟨20000, -1⟩, ⟨3, -1⟩⟩ ⟨⟨20, 2⟩, ⟨1, 2⟩⟩
      (by decide)⟩

/-- C5 (amended): addition computes, for every pair of operands, the
central value `a.value + b.value` reduced to `min(digits, digits)`
significant digits, the pre-canonical uncertainty
`sqrt(a.uncertainty² + b.uncertainty²)` (the square root always succeeds:
its operand is non-negative), and canonicalizes the pair.  On the scenario
inputs `(1.8 ± 0.6) + (2000.0 ± 0.3)` the two-digit truncation gives the
value `2.0E+3` and the degenerate canonicalization branch replaces the
one-digit uncertainty `0.7` by `1E+2`. -/
theorem C5_add_formula :
    (∀ a b : UncertainDecimal, ∃ u,
      decimal.sqrt ((a.uncertainty.mul a.uncertainty).add (b.uncertainty.mul b.uncertainty))
        = some u ∧
      a.add b = some (UncertainDecimal.canonical
        ⟨decimal.with_digits (a.value.add b.value) (min a.value.digits b.value.digits), u⟩)) ∧
    UncertainDecimal.add ⟨⟨18, -1⟩, ⟨6, -1⟩⟩ ⟨⟨20000, -1⟩, ⟨3, -1⟩⟩
      = some ⟨⟨20, 2⟩, ⟨1, 2⟩⟩ := by
  constructor
  · intro a b
    refine ⟨_, add_uncertainty_sqrt_some a b, ?_⟩
    unfold UncertainDecimal.add
    rw [add_uncertainty_sqrt_some a b]
    rfl
  · decide

/-- C5 counterexample: on the claim's own scenario the result value is
`2.0E+3` (the sum `2001.8` truncated to two significant digits, the digit
count of `1.8`) and the canonical uncertainty is `1E+2 = 100`, not `0.7`;
the claimed value `2001.8` and uncertainty `0.7` are both wrong. -/
theorem C5_scenario_refuted :
    UncertainDecimal.add ⟨⟨18, -1⟩, ⟨6, -1⟩⟩ ⟨⟨20000, -1⟩, ⟨3, -1⟩⟩
        = some ⟨⟨20, 2⟩, ⟨1, 2⟩⟩ ∧
    Decimal128.toQ ⟨1, 2⟩ ≠ 7 / 10 ∧ Decimal128.toQ ⟨20, 2⟩ ≠ 20018 / 10 := by
  refine ⟨by decide, ?_, ?_⟩ <;> norm_num [Decimal128.toQ]

/-- C6: the product reducer returns the canonicalization of the pair
`(running product, sqrt(accumulator) · running product)`, where the
accumulator is seeded at `ONE` and adds each element's squared relative
uncertainty, and the empty sequence yields `(1, 1)`. -/
theorem C6_product_reducer :
    (∀ l : List UncertainDecimal,
      UncertainDecimal.product l
        = (relVarAcc l).bind fun s => (decimal.sqrt s).map fun r =>
            UncertainDecimal.canonical ⟨runningProduct l, r.mul (runningProduct l)⟩) ∧
    UncertainDecimal.product [] = some ⟨⟨1, 0⟩, ⟨1, 0⟩⟩ := by
  constructor
  · intro l
    unfold UncertainDecimal.product relVarAcc runningProduct
    rw [show (Decimal128.ONE, Decimal128.ONE)
        = ((Decimal128.ONE, Decimal128.ONE) : Decimal128 × Decimal128) from rfl]
    rw [product_fold_split l Decimal128.ONE Decimal128.ONE]
    cases l.foldlM (fun s2 x => (relVarTerm x).map fun t => s2.add t) Decimal128.ONE with
    | none => rfl
    | some s =>
      show Option.bind (decimal.sqrt s) _ = Option.map _ (decimal.sqrt s)
      cases decimal.sqrt s with
      | none => rfl
      | some r => rfl
  · decide

/-- C7: for at least two measurements, `average` returns the pair of the
decimal arithmetic mean (the folded sum divided by `n`) and the
Bessel-corrected sample standard deviation (the folded squared deviations
divided by `n − 1`, under the precision-boosted square root); in
particular `average [10, 12, 14] = 12 ± 2`. -/
theorem C7_average :
    (∀ l : List Decimal128, 2 ≤ l.length →
      ∃ m q sd,
        (sumFold l).div ⟨(l.length : Int), 0⟩ = some m ∧
        (sqDevSum l m).div (Decimal128.sub ⟨(l.length : Int), 0⟩ Decimal128.ONE) = some q ∧
        decimal.sqrt q = some sd ∧
        average l = some ⟨m, sd⟩) ∧
    average [⟨10, 0⟩, ⟨12, 0⟩, ⟨14, 0⟩] = some ⟨⟨12, 0⟩, ⟨2, 0⟩⟩ := by
  constructor
  · intro l hl
    have hlen : ((l.length : Int)) ≠ 0 := by
      simp only [ne_eq, Int.natCast_eq_zero]
      omega
    obtain ⟨m, hm⟩ := div_eq_some (sumFold l) ⟨(l.length : Int), 0⟩ hlen
    have hsubpos : 0 < (Decimal128.sub ⟨(l.length : Int), 0⟩ Decimal128.ONE).coeff := by
      rw [sub_one_int]
      apply roundSig_coeff_pos 34 _ (by omega)
      show (0 : Int) < (l.length : Int) - 1
      omega
    obtain ⟨q, hq⟩ := div_eq_some (sqDevSum l m)
      (Decimal128.sub ⟨(l.length : Int), 0⟩ Decimal128.ONE) (by omega)
    have hqnn : 0 ≤ q.coeff := by
      apply div_nonneg_coeff (sqDevSum l m) _ q _ (le_of_lt hsubpos) hq
      exact foldl_sqdev_nonneg l m Decimal128.ZERO le_rfl
    refine ⟨m, q, decimal.sqrtCore q, hm, hq, sqrt_eq_some q hqnn, ?_⟩
    unfold average
    unfold sumFold at hm
    rw [hm]
    simp only [Option.bind_eq_bind, Option.some_bind]
    unfold sqDevSum at hq
    rw [hq]
    simp only [Option.some_bind]
    rw [sqrt_eq_some q hqnn]
    rfl
  · decide

/-- C7 witness: the general mean/standard-deviation description applied to
the three measurements `10, 12, 14`. -/
theorem C7_average_witness :
    2 ≤ ([⟨10, 0⟩, ⟨12, 0⟩, ⟨14, 0⟩] : List Decimal128).length ∧
    ∃ m q sd,
      (sumFold [⟨10, 0⟩, ⟨12, 0⟩, ⟨14, 0⟩]).div ⟨(3 : Int), 0⟩ = some m ∧
      (sqDevSum [⟨10, 0⟩, ⟨12, 0⟩, ⟨14, 0⟩] m).div
          (Decimal128.sub ⟨(3 : Int), 0⟩ Decimal128.ONE) = some q ∧
      decimal.sqrt q = some sd ∧
      average [⟨10, 0⟩, ⟨12, 0⟩, ⟨14, 0⟩] = some ⟨m, sd⟩ :=
  ⟨by decide, C7_average.1 [⟨10, 0⟩, ⟨12, 0⟩, ⟨14, 0⟩] (by decide)⟩

/-- C8: `average` over fewer than two measurements does not signal any
error: the source divides the (zero) squared-deviation sum by `n − 1 = 0`
and silently returns the mean paired with the non-finite `0/0` uncertainty
(`5 ± NaN`); in the model the non-finite outcome is `none`, and no error
channel exists in the function's type. -/
theorem C8_average_single_silent : average [⟨5, 0⟩] = none := by decide

/-- C10 (amended): for targets between 1 and the primitive's 34-digit
width, the decrease loop of the digit adjuster reaches its target in
finitely many steps on every finite decimal, and the increase loop reaches
its target on every finite decimal with a nonzero coefficient; on a zero
coefficient the increase loop never terminates (rescaling zero never
changes its digit count). -/
theorem C10_adjuster_termination :
    (∀ (d : Decimal128) (n : Nat), 1 ≤ n → n ≤ 34 →
      ∃ f, (decimal.with_max_digits_fuel f d n).digits ≤ n) ∧
    (∀ (d : Decimal128) (n : Nat), d.coeff ≠ 0 → n ≤ 34 →
      ∃ f, n ≤ (decimal.with_min_digits_fuel f d n).digits) := by
  constructor
  · intro d n hn _
    exact ⟨d.coeff.natAbs + 1, with_max_digits_fuel_le _ d n hn (by omega)⟩
  · intro d n hc _
    exact ⟨n, with_min_digits_fuel_ge n d n hc (by omega)⟩

/-- C10 counterexample: on the input `0` with target `2`, no number of
iterations of the increase loop ever reaches the target digit count — the
source `while` loop runs forever. -/
theorem C10_increase_loop_diverges_on_zero :
    ¬ ∃ f : Nat, 2 ≤ (decimal.with_min_digits_fuel f ⟨0, 0⟩ 2).digits := by
  rintro ⟨f, hf⟩
  rw [with_min_fuel_zero_digits f 0] at hf
  omega

/-- C10 witness: the termination statement applied to the decimal `5` with
target `3` digits. -/
theorem C10_adjuster_termination_witness :
    (⟨5, 0⟩ : Decimal128).coeff ≠ 0 ∧
    ∃ f, 3 ≤ (decimal.with_min_digits_fuel f ⟨5, 0⟩ 3).digits :=
  ⟨by decide, C10_adjuster_termination.2 ⟨5, 0⟩ 3 (by decide) (by decide)⟩

theorem digitVal_digitChar (n : Nat) (h : n < 10) : digitVal (digitChar n) = n := by
  interval_cases n <;> decide

theorem isDigitCh_digitChar (n : Nat) (h : n < 10) : isDigitCh (digitChar n) = true := by
  interval_cases n <;> decide

theorem isDigitCh_ne (c x : Char) (h : isDigitCh c = true) (hx : isDigitCh x = false) :
    c ≠ x := by
  intro he
  rw [he, hx] at h
  cases h

theorem isDigitCh_not_ws (c : Char) (h : isDigitCh c = true) : c.isWhitespace = false := by
  unfold isDigitCh at h
  rw [Bool.and_eq_true, Nat.ble_eq, Nat.ble_eq] at h
  by_contra hws
  rw [Bool.not_eq_false] at hws
  have hcs : ((c = ' ' ∨ c = '\t') ∨ c = '\r') ∨ c = '\n' := by
    simpa [Char.isWhitespace] using hws
  rcases hcs with ((rfl | rfl) | rfl) | rfl <;> revert h <;> decide

theorem natCharsAux_congr :
    ∀ (n f g : Nat), n < f → n < g → natCharsAux f n = natCharsAux g n := by
  intro n
  induction n using Nat.strong_induction_on with
  | _ n ih =>
    intro f g hf hg
    match f, g with
    | f + 1, g + 1 =>
      by_cases h : n = 0
      · simp [natCharsAux, h]
      · have hlt : n / 10 < n := Nat.div_lt_self (Nat.pos_of_ne_zero h) (by omega)
        simp only [natCharsAux, h, if_false]
        rw [ih (n / 10) hlt f g (by omega) (by omega)]

theorem natChars_zero : natChars 0 = [] := rfl

theorem natChars_succ (n : Nat) (h : n ≠ 0) :
    natChars n = natChars (n / 10) ++ [digitChar (n % 10)] := by
  unfold natChars
  conv_lhs => rw [natCharsAux, if_neg h]
  rw [natCharsAux_congr (n / 10) n (n / 10 + 1)
    (Nat.div_lt_self (Nat.pos_of_ne_zero h) (by omega)) (by omega), List.reverse_cons]

theorem parseNatF_natChars : ∀ n : Nat, parseNatF (natChars n) = n := by
  intro n
  induction n using Nat.strong_induction_on with
  | _ n ih =>
    by_cases h : n = 0
    · rw [h, natChars_zero]
      rfl
    · have hlt : n / 10 < n := Nat.div_lt_self (Nat.pos_of_ne_zero h) (by omega)
      rw [natChars_succ n h]
      unfold parseNatF
      rw [List.foldl_append]
      have hih := ih (n / 10) hlt
      unfold parseNatF at hih
      rw [hih]
      show 10 * (n / 10) + digitVal (digitChar (n % 10)) = n
      rw [digitVal_digitChar (n % 10) (Nat.mod_lt n (by omega))]
      omega

theorem parseNatF_natCharsNN (n : Nat) : parseNatF (natCharsNN n) = n := by
  unfold natCharsNN
  split
  · rename_i h
    rw [h]
    decide
  · exact parseNatF_natChars n

theorem natChars_digits : ∀ n : Nat, ∀ c ∈ natChars n, isDigitCh c = true := by
  intro n
  induction n using Nat.strong_induction_on with
  | _ n ih =>
    intro c hc
    by_cases h : n = 0
    · rw [h, natChars_zero] at hc
      cases hc
    · rw [natChars_succ n h] at hc
      rcases List.mem_append.mp hc with h1 | h2
      · exact ih (n / 10) (Nat.div_lt_self (Nat.pos_of_ne_zero h) (by omega)) c h1
      · rw [List.mem_singleton] at h2
        rw [h2]
        exact isDigitCh_digitChar _ (Nat.mod_lt n (by omega))

theorem natCharsNN_digits (n : Nat) : ∀ c ∈ natCharsNN n, isDigitCh c = true := by
  unfold natCharsNN
  split
  · intro c hc
    rw [List.mem_singleton] at hc
    rw [hc]
    decide
  · exact natChars_digits n

theorem natCharsNN_ne_nil (n : Nat) : natCharsNN n ≠ [] := by
  unfold natCharsNN
  split
  · simp
  · rename_i h
    rw [natChars_succ n h]
    simp

theorem foldl_zeros (k : Nat) :
    List.foldl (fun a c => 10 * a + digitVal c) 0 (List.replicate k '0') = 0 := by
  induction k with
  | zero => rfl
  | succ k ih =>
    rw [List.replicate_succ, List.foldl_cons]
    show List.foldl (fun a c => 10 * a + digitVal c) (10 * 0 + digitVal '0')
        (List.replicate k '0') = 0
    have : 10 * 0 + digitVal '0' = 0 := by decide
    rw [this, ih]

theorem parseNatF_append_zeros (k : Nat) (l : List Char) :
    parseNatF (List.replicate k '0' ++ l) = parseNatF l := by
  unfold parseNatF
  rw [List.foldl_append, foldl_zeros]

theorem takeWhile_all_append (p : Char → Bool) :
    ∀ (l r : List Char), (∀ c ∈ l, p c = true) →
      (∀ a t, r = a :: t → p a = false) → (l ++ r).takeWhile p = l := by
  intro l
  induction l with
  | nil =>
    intro r _ hr
    cases r with
    | nil => rfl
    | cons a t => simp [List.takeWhile_cons, hr a t rfl]
  | cons b l2 ih =>
    intro r hl hr
    have hb : p b = true := hl b (by simp)
    rw [List.cons_append, List.takeWhile_cons_of_pos hb, ih r (fun c hc => hl c (by simp [hc])) hr]

theorem dropWhile_all_append (p : Char → Bool) :
    ∀ (l r : List Char), (∀ c ∈ l, p c = true) →
      (∀ a t, r = a :: t → p a = false) → (l ++ r).dropWhile p = r := by
  intro l
  induction l with
  | nil =>
    intro r _ hr
    cases r with
    | nil => rfl
    | cons a t => simp [List.dropWhile_cons, hr a t rfl]
  | cons b l2 ih =>
    intro r hl hr
    have hb : p b = true := hl b (by simp)
    rw [List.cons_append, List.dropWhile_cons_of_pos hb, ih r (fun c hc => hl c (by simp [hc])) hr]

theorem dropWhile_forall_false (p : Char → Bool) (l : List Char)
    (h : ∀ c ∈ l, p c = false) : l.dropWhile p = l := by
  cases l with
  | nil => rfl
  | cons a t => simp [List.dropWhile_cons, h a (by simp)]

theorem spanDigits_append (l r : List Char) (hl : ∀ c ∈ l, isDigitCh c = true)
    (hr : ∀ a t, r = a :: t → isDigitCh a = false) : spanDigits (l ++ r) = (l, r) := by
  unfold spanDigits
  rw [takeWhile_all_append _ l r hl hr, dropWhile_all_append _ l r hl hr]

theorem spanDigits_all (l : List Char) (hl : ∀ c ∈ l, isDigitCh c = true) :
    spanDigits l = (l, []) := by
  have h := spanDigits_append l [] hl (fun a t ht => by cases ht)
  simpa using h

theorem splitFrac_no_dot (tail : List Char) (h : ∀ a t2, tail = a :: t2 → a ≠ '.') :
    splitFrac tail = ([], tail) := by
  cases tail with
  | nil => rfl
  | cons a t => simp [splitFrac, h a t rfl]

theorem takeSign_minus (l : List Char) : takeSign ('-' :: l) = (true, l) := by
  simp [takeSign]

theorem takeSign_plus (l : List Char) : takeSign ('+' :: l) = (false, l) := by
  simp [takeSign]

theorem takeSign_other (c : Char) (l : List Char) (h1 : c ≠ '-') (h2 : c ≠ '+') :
    takeSign (c :: l) = (false, c :: l) := by
  simp [takeSign, h1, h2]

theorem parseExpPart_E (P : Prop) [Decidable P] (a : Nat) :
    parseExpPart ('E' :: (if P then '-' else '+') :: natCharsNN a)
      = some (if P then -(a : Int) else (a : Int)) := by
  have hspan : spanDigits (natCharsNN a) = (natCharsNN a, []) :=
    spanDigits_all _ (natCharsNN_digits a)
  by_cases hP : P
  · rw [if_pos hP, if_pos hP]
    simp only [parseExpPart, takeSign_minus, hspan]
    simp [List.isEmpty_iff, natCharsNN_ne_nil, parseNatF_natCharsNN]
  · rw [if_neg hP, if_neg hP]
    simp only [parseExpPart, takeSign_plus, hspan]
    simp [List.isEmpty_iff, natCharsNN_ne_nil, parseNatF_natCharsNN]

theorem parseDec_core_nodot (P : Prop) [Decidable P] (ip tail : List Char)
    (hip : ∀ c ∈ ip, isDigitCh c = true) (hne : ip ≠ [])
    (htail : ∀ a t2, tail = a :: t2 → isDigitCh a = false ∧ a ≠ '.') :
    parseDecChars ((if P then ['-'] else []) ++ (ip ++ tail))
      = (parseExpPart tail).map fun ev =>
          ⟨if P then -(parseNatF ip : Int) else (parseNatF ip : Int), ev⟩ := by
  obtain ⟨b, ipt, rfl⟩ := List.exists_cons_of_ne_nil hne
  have hb : isDigitCh b = true := hip b (by simp)
  have hts : takeSign ((b :: ipt) ++ tail) = (false, (b :: ipt) ++ tail) := by
    rw [List.cons_append]
    exact takeSign_other b _ (isDigitCh_ne b '-' hb (by decide))
      (isDigitCh_ne b '+' hb (by decide))
  have hspan : spanDigits ((b :: ipt) ++ tail) = (b :: ipt, tail) :=
    spanDigits_append _ _ hip (fun a t2 ht => (htail a t2 ht).1)
  have hsf : splitFrac tail = ([], tail) :=
    splitFrac_no_dot tail (fun a t2 ht => (htail a t2 ht).2)
  by_cases hP : P
  · rw [if_pos hP]
    rw [show ['-'] ++ ((b :: ipt) ++ tail) = '-' :: ((b :: ipt) ++ tail) from rfl]
    simp only [parseDecChars, takeSign_minus, hspan, hsf]
    cases hE : parseExpPart tail with
    | none => simp [hE]
    | some ev => simp [hE, hP, parseNatF]
  · rw [if_neg hP]
    rw [List.nil_append]
    simp only [parseDecChars, hts, hspan, hsf]
    cases hE : parseExpPart tail with
    | none => simp [hE]
    | some ev => simp [hE, hP, parseNatF]

theorem parseDec_core_dot (P : Prop) [Decidable P] (ip fp tail : List Char)
    (hip : ∀ c ∈ ip, isDigitCh c = true) (hfp : ∀ c ∈ fp, isDigitCh c = true)
    (hne : ¬(ip = [] ∧ fp = []))
    (htail : ∀ a t2, tail = a :: t2 → isDigitCh a = false) :
    parseDecChars ((if P then ['-'] else []) ++ (ip ++ '.' :: (fp ++ tail)))
      = (parseExpPart tail).map fun ev =>
          ⟨if P then -(parseNatF (ip ++ fp) : Int) else (parseNatF (ip ++ fp) : Int),
            ev - (fp.length : Int)⟩ := by
  have hspan2 : spanDigits (fp ++ tail) = (fp, tail) := spanDigits_append _ _ hfp htail
  have hspan : spanDigits (ip ++ '.' :: (fp ++ tail)) = (ip, '.' :: (fp ++ tail)) :=
    spanDigits_append _ _ hip (fun a t2 ht => by
      obtain ⟨rfl, _⟩ := List.cons.inj ht
      decide)
  have hsf : splitFrac ('.' :: (fp ++ tail)) = (fp, tail) := by
    show (if '.' = '.' then spanDigits (fp ++ tail) else ([], '.' :: (fp ++ tail))) = (fp, tail)
    rw [if_pos rfl, hspan2]
  cases ip with
  | nil =>
    have hfpne : fp ≠ [] := by
      intro h0
      exact hne ⟨rfl, h0⟩
    have hts : takeSign ('.' :: (fp ++ tail)) = (false, '.' :: (fp ++ tail)) :=
      takeSign_other '.' _ (by decide) (by decide)
    by_cases hP : P
    · rw [if_pos hP]
      rw [show ['-'] ++ ([] ++ '.' :: (fp ++ tail)) = '-' :: ('.' :: (fp ++ tail)) from rfl]
      simp only [parseDecChars, takeSign_minus, hsf]
      rw [show spanDigits ('.' :: (fp ++ tail)) = ([], '.' :: (fp ++ tail)) from
        spanDigits_append [] _ (by simp) (fun a t2 ht => by
          obtain ⟨rfl, _⟩ := List.cons.inj ht
          decide)]
      cases hE : parseExpPart tail with
      | none => simp [hsf, hE, hfpne, List.isEmpty_iff]
      | some ev => simp [hsf, hE, hP, List.isEmpty_iff, hfpne]
    · rw [if_neg hP]
      rw [List.nil_append, List.nil_append]
      simp only [parseDecChars, hts]
      rw [show spanDigits ('.' :: (fp ++ tail)) = ([], '.' :: (fp ++ tail)) from
        spanDigits_append [] _ (by simp) (fun a t2 ht => by
          obtain ⟨rfl, _⟩ := List.cons.inj ht
          decide)]
      cases hE : parseExpPart tail with
      | none => simp [hsf, hE, hfpne, List.isEmpty_iff]
      | some ev => simp [hsf, hE, hP, List.isEmpty_iff, hfpne]
  | cons b ipt =>
    have hb : isDigitCh b = true := hip b (by simp)
    have hts : takeSign ((b :: ipt) ++ '.' :: (fp ++ tail))
        = (false, (b :: ipt) ++ '.' :: (fp ++ tail)) := by
      rw [List.cons_append]
      exact takeSign_other b _ (isDigitCh_ne b '-' hb (by decide))
        (isDigitCh_ne b '+' hb (by decide))
    by_cases hP : P
    · rw [if_pos hP]
      rw [show ['-'] ++ ((b :: ipt) ++ '.' :: (fp ++ tail))
          = '-' :: ((b :: ipt) ++ '.' :: (fp ++ tail)) from rfl]
      simp only [parseDecChars, takeSign_minus, hspan, hsf]
      cases hE : parseExpPart tail with
      | none => simp [hE]
      | some ev => simp [hE, hP]
    · rw [if_neg hP]
      rw [List.nil_append]
      simp only [parseDecChars, hts, hspan, hsf]
      cases hE : parseExpPart tail with
      | none => simp [hE]
      | some ev => simp [hE, hP]

theorem parse_toChars (d : Decimal128) : parseDecChars d.toChars = some d := by
  have hds := natCharsNN_digits d.coeff.natAbs
  have hdsne := natCharsNN_ne_nil d.coeff.natAbs
  have hcoeff : (if d.coeff < 0 then -(d.coeff.natAbs : Int) else (d.coeff.natAbs : Int))
      = d.coeff := by
    split <;> omega
  have hmk : ∀ c e : Int, c = d.coeff → e = d.exponent → (⟨c, e⟩ : Decimal128) = d := by
    intro c e h1 h2
    rw [h1, h2]
  simp only [Decimal128.toChars]
  set ds := natCharsNN d.coeff.natAbs with hdsdef
  have hNpos : 1 ≤ ds.length := List.length_pos.mpr hdsne
  by_cases hplain : d.exponent ≤ 0 ∧ -6 ≤ d.exponent + (ds.length : Int) - 1
  · rw [if_pos hplain]
    by_cases he0 : d.exponent = 0
    · rw [if_pos he0]
      have h := parseDec_core_nodot (d.coeff < 0) ds [] hds hdsne
        (fun a t2 ht => by cases ht)
      rw [List.append_nil] at h
      rw [h, show parseExpPart [] = some (0 : Int) from rfl, Option.map_some']
      exact congrArg some (hmk _ _ (by rw [parseNatF_natCharsNN]; exact hcoeff) he0.symm)
    · by_cases hlt : -d.exponent < (ds.length : Int)
      · rw [if_neg he0, if_pos hlt]
        have h := parseDec_core_dot (d.coeff < 0)
          (ds.take ((ds.length : Int) + d.exponent).toNat)
          (ds.drop ((ds.length : Int) + d.exponent).toNat) []
          (fun c hc => hds c (List.take_subset _ _ hc))
          (fun c hc => hds c (List.drop_subset _ _ hc))
          (by
            rintro ⟨_, hfp⟩
            rw [List.drop_eq_nil_iff] at hfp
            omega)
          (fun a t2 ht => by cases ht)
        rw [List.append_nil] at h
        rw [h, show parseExpPart [] = some (0 : Int) from rfl, Option.map_some']
        refine congrArg some (hmk _ _ ?_ ?_)
        · rw [List.take_append_drop, parseNatF_natCharsNN]
          exact hcoeff
        · rw [List.length_drop]
          omega
      · rw [if_neg he0, if_neg hlt]
        have h := parseDec_core_dot (d.coeff < 0) ['0']
          (List.replicate (-d.exponent - (ds.length : Int)).toNat '0' ++ ds) []
          (by
            intro c hc
            rw [List.mem_singleton] at hc
            rw [hc]
            decide)
          (by
            intro c hc
            rcases List.mem_append.mp hc with h1 | h2
            · rw [(List.mem_replicate.mp h1).2]
              decide
            · exact hds c h2)
          (by rintro ⟨h1, _⟩; cases h1)
          (fun a t2 ht => by cases ht)
        rw [List.append_nil] at h
        rw [show (['0'] : List Char)
              ++ '.' :: (List.replicate (-d.exponent - (ds.length : Int)).toNat '0' ++ ds)
            = '0' :: '.' :: (List.replicate (-d.exponent - (ds.length : Int)).toNat '0' ++ ds)
          from rfl] at h
        rw [h, show parseExpPart [] = some (0 : Int) from rfl, Option.map_some']
        refine congrArg some (hmk _ _ ?_ ?_)
        · rw [show (['0'] : List Char)
                ++ (List.replicate (-d.exponent - (ds.length : Int)).toNat '0' ++ ds)
              = List.replicate ((-d.exponent - (ds.length : Int)).toNat + 1) '0' ++ ds by
            rw [List.replicate_succ]
            simp]
          rw [parseNatF_append_zeros, parseNatF_natCharsNN]
          exact hcoeff
        · rw [List.length_append, List.length_replicate]
          omega
  · rw [if_neg hplain]
    by_cases hN1 : ds.length ≤ 1
    · rw [if_pos hN1]
      obtain ⟨b, hb⟩ := List.length_eq_one.mp (show ds.length = 1 by omega)
      have hbd : isDigitCh b = true := hds b (by rw [hb]; simp)
      have h := parseDec_core_nodot (d.coeff < 0) [b]
        ('E' :: (if d.exponent + (ds.length : Int) - 1 < 0 then '-' else '+')
          :: natCharsNN (d.exponent + (ds.length : Int) - 1).natAbs)
        (by
          intro c hc
          rw [List.mem_singleton] at hc
          rw [hc]
          exact hbd)
        (by simp)
        (fun a t2 ht => by
          obtain ⟨rfl, _⟩ := List.cons.inj ht
          exact ⟨by decide, by decide⟩)
      rw [show ds.take 1 = [b] by rw [hb]; rfl]
      rw [List.append_nil]
      rw [List.append_assoc]
      rw [h, parseExpPart_E, Option.map_some']
      refine congrArg some (hmk _ _ ?_ ?_)
      · rw [show parseNatF [b] = parseNatF ds by rw [hb]]
        rw [parseNatF_natCharsNN]
        exact hcoeff
      · have hN : ds.length = 1 := by omega
        rw [hN]
        split <;> omega
    · rw [if_neg hN1]
      obtain ⟨b, t2, hb⟩ := List.exists_cons_of_ne_nil hdsne
      have hbd : isDigitCh b = true := hds b (by rw [hb]; simp)
      have h := parseDec_core_dot (d.coeff < 0) [b] t2
        ('E' :: (if d.exponent + (ds.length : Int) - 1 < 0 then '-' else '+')
          :: natCharsNN (d.exponent + (ds.length : Int) - 1).natAbs)
        (by
          intro c hc
          rw [List.mem_singleton] at hc
          rw [hc]
          exact hbd)
        (fun c hc => hds c (by rw [hb]; exact List.mem_cons_of_mem b hc))
        (by rintro ⟨h1, _⟩; cases h1)
        (fun a t2x ht => by
          obtain ⟨rfl, _⟩ := List.cons.inj ht
          decide)
      rw [show ds.take 1 = [b] by rw [hb]; rfl]
      rw [show ds.drop 1 = t2 by rw [hb]; rfl]
      simp only [List.append_assoc, List.cons_append, List.nil_append] at h ⊢
      rw [h, parseExpPart_E, Option.map_some']
      refine congrArg some (hmk _ _ ?_ ?_)
      · rw [show parseNatF (b :: t2) = parseNatF ds by rw [hb]]
        rw [parseNatF_natCharsNN]
        exact hcoeff
      · have hlen : t2.length + 1 = ds.length := by
          rw [hb]
          rfl
        split <;> omega

theorem mem_toChars_class (d : Decimal128) :
    ∀ c ∈ d.toChars, isDigitCh c = true ∨ c = '-' ∨ c = '.' ∨ c = 'E' ∨ c = '+' := by
  intro c hc
  have hds := natCharsNN_digits d.coeff.natAbs
  have heds := natCharsNN_digits (d.exponent + ((natCharsNN d.coeff.natAbs).length : Int)
    - 1).natAbs
  have hsgn : ∀ x ∈ (if d.coeff < 0 then (['-'] : List Char) else []), x = '-' := by
    intro x hx
    split at hx
    · rw [List.mem_singleton] at hx
      exact hx
    · cases hx
  simp only [Decimal128.toChars] at hc
  split at hc
  · split at hc
    · rcases List.mem_append.mp hc with h1 | h2
      · exact Or.inr (Or.inl (hsgn c h1))
      · exact Or.inl (hds c h2)
    · split at hc
      · rcases List.mem_append.mp hc with h1 | h2
        · exact Or.inr (Or.inl (hsgn c h1))
        · rcases List.mem_append.mp h2 with h3 | h4
          · exact Or.inl (hds c (List.take_subset _ _ h3))
          · rcases List.mem_cons.mp h4 with rfl | h5
            · exact Or.inr (Or.inr (Or.inl rfl))
            · exact Or.inl (hds c (List.drop_subset _ _ h5))
      · rcases List.mem_append.mp hc with h1 | h2
        · exact Or.inr (Or.inl (hsgn c h1))
        · rcases List.mem_cons.mp h2 with rfl | h3
          · exact Or.inl (by decide)
          · rcases List.mem_cons.mp h3 with rfl | h4
            · exact Or.inr (Or.inr (Or.inl rfl))
            · rcases List.mem_append.mp h4 with h5 | h6
              · rw [(List.mem_replicate.mp h5).2]
                exact Or.inl (by decide)
              · exact Or.inl (hds c h6)
  · rcases List.mem_append.mp hc with h1 | h2
    · rcases List.mem_append.mp h1 with h3 | h4
      · rcases List.mem_append.mp h3 with h5 | h6
        · exact Or.inr (Or.inl (hsgn c h5))
        · exact Or.inl (hds c (List.take_subset _ _ h6))
      · split at h4
        · cases h4
        · rcases List.mem_cons.mp h4 with rfl | h5
          · exact Or.inr (Or.inr (Or.inl rfl))
          · exact Or.inl (hds c (List.drop_subset _ _ h5))
    · rcases List.mem_cons.mp h2 with rfl | h3
      · exact Or.inr (Or.inr (Or.inr (Or.inl rfl)))
      · rcases List.mem_cons.mp h3 with rfl | h4
        · split
          · exact Or.inr (Or.inl rfl)
          · exact Or.inr (Or.inr (Or.inr (Or.inr rfl)))
        · exact Or.inl (heds c h4)

theorem toChars_not_ws (d : Decimal128) : ∀ c ∈ d.toChars, c.isWhitespace = false := by
  intro c hc
  rcases mem_toChars_class d c hc with h | rfl | rfl | rfl | rfl
  · exact isDigitCh_not_ws c h
  all_goals decide

theorem toChars_ne_pm (d : Decimal128) : ∀ c ∈ d.toChars, c ≠ '±' := by
  intro c hc
  rcases mem_toChars_class d c hc with h | rfl | rfl | rfl | rfl
  · exact isDigitCh_ne c '±' h (by decide)
  all_goals decide

theorem toChars_ne_nil (d : Decimal128) : d.toChars ≠ [] := by
  have hdsne := natCharsNN_ne_nil d.coeff.natAbs
  intro h
  simp only [Decimal128.toChars] at h
  split at h
  · split at h
    · rcases List.append_eq_nil.mp h with ⟨_, h2⟩
      exact hdsne h2
    · split at h
      · rcases List.append_eq_nil.mp h with ⟨_, h2⟩
        rcases List.append_eq_nil.mp h2 with ⟨_, h3⟩
        cases h3
      · rcases List.append_eq_nil.mp h with ⟨_, h2⟩
        cases h2
  · rcases List.append_eq_nil.mp h with ⟨_, h2⟩
    cases h2

theorem trim_right_space (l : List Char) (h : ∀ c ∈ l, Char.isWhitespace c = false) :
    trimChars (l ++ [' ']) = l := by
  unfold trimChars
  cases l with
  | nil => rfl
  | cons a t =>
    have ha : a.isWhitespace = false := h a (by simp)
    rw [List.cons_append, List.dropWhile_cons_of_neg (by simp [ha])]
    rw [show (a :: (t ++ [' '])).reverse = ' ' :: (a :: t).reverse by simp]
    rw [List.dropWhile_cons_of_pos (by decide)]
    rw [dropWhile_forall_false _ _ (fun c hc => h c (List.mem_reverse.mp hc))]
    exact List.reverse_reverse _

theorem trim_left_space (l : List Char) (h : ∀ c ∈ l, Char.isWhitespace c = false) :
    trimChars (' ' :: l) = l := by
  unfold trimChars
  rw [List.dropWhile_cons_of_pos (by decide)]
  rw [dropWhile_forall_false _ l h]
  rw [dropWhile_forall_false _ l.reverse (fun c hc => h c (List.mem_reverse.mp hc))]
  exact List.reverse_reverse _

theorem splitOnceChar_append (sep : Char) :
    ∀ (l1 l2 : List Char), sep ∉ l1 →
      splitOnceChar sep (l1 ++ sep :: l2) = some (l1, l2) := by
  intro l1
  induction l1 with
  | nil =>
    intro l2 _
    simp [splitOnceChar]
  | cons a t ih =>
    intro l2 h
    have ha : ¬(a = sep) := by
      intro he
      exact h (by simp [he])
    rw [List.cons_append]
    show (if a = sep then some ([], t ++ sep :: l2)
        else (splitOnceChar sep (t ++ sep :: l2)).map fun p => (a :: p.1, p.2)) = _
    rw [if_neg ha, ih l2 (fun hm => h (by simp [hm]))]
    rfl

theorem from_str_format (x : UncertainDecimal) :
    UncertainDecimal.from_str x.format = some x := by
  have hsplit : splitOnceChar '±'
      (x.value.toChars ++ ' ' :: '±' :: ' ' :: x.uncertainty.toChars)
      = some (x.value.toChars ++ [' '], ' ' :: x.uncertainty.toChars) := by
    have hshape : x.value.toChars ++ ' ' :: '±' :: ' ' :: x.uncertainty.toChars
        = (x.value.toChars ++ [' ']) ++ '±' :: (' ' :: x.uncertainty.toChars) := by
      simp
    rw [hshape]
    apply splitOnceChar_append
    intro hm
    rcases List.mem_append.mp hm with h1 | h2
    · exact toChars_ne_pm x.value '±' h1 rfl
    · rw [List.mem_singleton] at h2
      cases h2
  have htrim1 : trimChars (x.value.toChars ++ [' ']) = x.value.toChars :=
    trim_right_space _ (toChars_not_ws x.value)
  have htrim2 : trimChars (' ' :: x.uncertainty.toChars) = x.uncertainty.toChars :=
    trim_left_space _ (toChars_not_ws x.uncertainty)
  show (do
    let p ← splitOnceChar '±' (x.value.toChars ++ ' ' :: '±' :: ' ' :: x.uncertainty.toChars)
    let v ← parseDecChars (trimChars p.1)
    let u ← parseDecChars (trimChars p.2)
    pure (⟨v, u⟩ : UncertainDecimal)) = some x
  rw [hsplit]
  simp only [Option.bind_eq_bind, Option.some_bind]
  rw [htrim1, htrim2, parse_toChars, parse_toChars]
  rfl

/-- C9: round-trip through the text codec: for every canonical
`UncertainDecimal` (a fixed point of the canonicalizer), parsing the
formatted `"<value> ± <uncertainty>"` text yields the pair back exactly. -/
theorem C9_parse_format_roundtrip (x : UncertainDecimal) (h : x.canonical = x) :
    UncertainDecimal.from_str x.format = some x :=
  from_str_format x

/-- C9 witness: the canonical pair `1.8 ± 0.6` round-trips through the
codec. -/
theorem C9_parse_format_roundtrip_witness :
    (⟨⟨18, -1⟩, ⟨6, -1⟩⟩ : UncertainDecimal).canonical = ⟨⟨18, -1⟩, ⟨6, -1⟩⟩ ∧
    UncertainDecimal.from_str (⟨⟨18, -1⟩, ⟨6, -1⟩⟩ : UncertainDecimal).format
      = some ⟨⟨18, -1⟩, ⟨6, -1⟩⟩ :=
  ⟨by decide, C9_parse_format_roundtrip ⟨⟨18, -1⟩, ⟨6, -1⟩⟩ (by decide)⟩

